import Mathlib

/-!
Verification of the three C utility routines of the repository:
`fibonacci_iterative` (fib.c), `sum_of_squares` (array.c) and the
`create_string` / `free_string` pair (string_lib.c), against their
natural-language specification.

Machine integers are modelled as `Int` with an explicit wrap at the
64-bit signed boundary (`int64_wrap`) at every point where the C code
performs `long long` arithmetic.  The heap used by the string routines
is modelled as an association list from addresses to byte blocks, with
allocation success passed in as an explicit flag.
-/

/-- Two's-complement wrap of an integer value into the signed 64-bit
range `[-2^63, 2^63)`, modelling C `long long` arithmetic results. -/
def int64_wrap (v : Int) : Int :=
  (v + 2 ^ 63) % 2 ^ 64 - 2 ^ 63

/- ### fib.c -/

/-- The loop body of `fibonacci_iterative`, run `fuel` times:
`next = prev + current; prev = current; current = next;`
with the `long long` addition wrapped at 64 bits. -/
def fibLoop : Nat → Int → Int → Int × Int
  | 0, prev, current => (prev, current)
  | fuel + 1, prev, current => fibLoop fuel current (int64_wrap (prev + current))

/-- `fibonacci_iterative` from fib.c: returns `n` when `n <= 1`;
otherwise initialises `prev = 0`, `current = 1` and runs the loop for
`i = 2 .. n`, i.e. `n - 1` iterations, returning `current`. -/
def fibonacci_iterative (n : Int) : Int :=
  if n ≤ 1 then n
  else (fibLoop (n - 1).toNat 0 1).2

/- ### array.c -/

/-- One squared term of `sum_of_squares`: the element is widened to
64 bits before the multiplication, `(long long)arr[i] * arr[i]`, so the
product is formed in 64-bit arithmetic. -/
def squared_term (x : Int) : Int :=
  int64_wrap (x * x)

/-- `sum_of_squares` from array.c: starting from `result = 0`, for
`i = 0 .. n-1` in order performs `result += (long long)arr[i] * arr[i]`,
with the 64-bit accumulation wrapped at each step. -/
def sum_of_squares (arr : Nat → Int) (n : Nat) : Int :=
  (List.range n).foldl (fun result i => int64_wrap (result + squared_term (arr i))) 0

/-- The mathematically exact sum of squares of `arr 0 .. arr (n-1)`,
as the specification states it (arbitrary-precision arithmetic). -/
def sum_of_squares_spec (arr : Nat → Int) (n : Nat) : Int :=
  ∑ i ∈ Finset.range n, arr i ^ 2

/- ### string_lib.c heap model -/

/-- A heap: a bump-allocator frontier `next` and the currently
allocated blocks, an association list from address to byte contents. -/
structure Heap where
  next : Nat
  blocks : List (Nat × List Nat)
  deriving Repr, DecidableEq

/-- Read the block at `addr`, if allocated. -/
def Heap.read (h : Heap) (addr : Nat) : Option (List Nat) :=
  h.blocks.lookup addr

/-- Well-formedness: every allocated address lies below the frontier. -/
def Heap.wf (h : Heap) : Prop :=
  ∀ p ∈ h.blocks, p.1 < h.next

/-- `malloc(size)`: when the allocator succeeds (`ok = true`) it hands
out a fresh address holding `size` uninitialised bytes (modelled as
zeros); when it fails it returns a null result and leaves the heap
untouched. -/
def malloc (h : Heap) (size : Nat) (ok : Bool) : Option Nat × Heap :=
  if ok then
    (some h.next, ⟨h.next + 1, (h.next, List.replicate size 0) :: h.blocks⟩)
  else
    (none, h)

/-- Overwrite the contents of the block at `addr`. -/
def Heap.store (h : Heap) (addr : Nat) (bytes : List Nat) : Heap :=
  ⟨h.next, h.blocks.map fun p => if p.1 = addr then (addr, bytes) else p⟩

/-- `strcpy(dest, src)`: writes the bytes of `src` followed by the
null terminator into the block at `dest`. -/
def strcpy (h : Heap) (dest : Nat) (src : List Nat) : Heap :=
  h.store dest (src ++ [0])

/-- `create_string` from string_lib.c: `len = strlen(input)` (the input
string is modelled as its byte contents before the terminator), then
`malloc(len + 1)`; if the result is non-null, `strcpy` the input into
it; return the (possibly null) result.  `allocOk` models whether the
allocator succeeds. -/
def create_string (h : Heap) (input : List Nat) (allocOk : Bool) : Option Nat × Heap :=
  let len := input.length
  match malloc h (len + 1) allocOk with
  | (some result, h1) => (some result, strcpy h1 result input)
  | (none, h1) => (none, h1)

/-- `free(ptr)`: removes the block at `addr` from the heap. -/
def Heap.free (h : Heap) (addr : Nat) : Heap :=
  ⟨h.next, h.blocks.filter fun p => p.1 ≠ addr⟩

/-- `free_string` from string_lib.c: frees the buffer only when the
pointer is non-null; a null pointer is left alone. -/
def free_string (h : Heap) (str : Option Nat) : Heap :=
  match str with
  | some p => h.free p
  | none => h

/- ### Step machines for the two loops (termination / purity claims) -/

/-- One iteration of the `fibonacci_iterative` loop as a state
transformer on `(i, prev, current)`. -/
def fib_triple_step (s : Int × Int × Int) : Int × Int × Int :=
  (s.1 + 1, s.2.2, int64_wrap (s.2.1 + s.2.2))

/-- One iteration of the `fibonacci_iterative` loop with an explicit
heap component threaded through: the loop body touches only the three
locals, never the heap. -/
def fib_machine_step (s : (Int × Int × Int) × Heap) : (Int × Int × Int) × Heap :=
  (fib_triple_step s.1, s.2)

/-- `fibonacci_iterative` run against an explicit heap: the guard and
early return, then the loop machine for `n - 1` iterations, returning
the final heap and the value of `current`. -/
def fib_exec (h : Heap) (n : Int) : Heap × Int :=
  if n ≤ 1 then (h, n)
  else
    let final := fib_machine_step^[(n - 1).toNat] ((2, 0, 1), h)
    (final.2, final.1.2.2)

/-- One iteration of the `sum_of_squares` loop as a state transformer
on `(i, result)`. -/
def sos_step (arr : Nat → Int) (s : Nat × Int) : Nat × Int :=
  (s.1 + 1, int64_wrap (s.2 + squared_term (arr s.1)))

/- ### Helper lemmas -/

/-- Values already inside the signed 64-bit range are fixed by the wrap. -/
lemma int64_wrap_id (v : Int) (h0 : -2 ^ 63 ≤ v) (h1 : v < 2 ^ 63) :
    int64_wrap v = v := by
  unfold int64_wrap
  omega

/-- The square of a signed 32-bit value fits in 64 bits, so the widened
multiplication is exact. -/
lemma squared_term_exact (x : Int) (h0 : -2 ^ 31 ≤ x) (h1 : x < 2 ^ 31) :
    squared_term x = x * x := by
  unfold squared_term
  have hnn : (0 : Int) ≤ x * x := mul_self_nonneg x
  have hub : (0 : Int) ≤ (2 ^ 31 - x) * (2 ^ 31 + x) := by
    apply mul_nonneg <;> omega
  apply int64_wrap_id
  · omega
  · nlinarith [hub]

lemma sum_of_squares_spec_zero (arr : Nat → Int) : sum_of_squares_spec arr 0 = 0 := by
  simp [sum_of_squares_spec]

lemma sum_of_squares_spec_succ (arr : Nat → Int) (n : Nat) :
    sum_of_squares_spec arr (n + 1) = sum_of_squares_spec arr n + arr n ^ 2 := by
  simp [sum_of_squares_spec, Finset.sum_range_succ]

lemma sum_of_squares_spec_nonneg (arr : Nat → Int) (n : Nat) :
    0 ≤ sum_of_squares_spec arr n := by
  exact Finset.sum_nonneg fun i _ => sq_nonneg (arr i)

lemma sum_of_squares_succ (arr : Nat → Int) (n : Nat) :
    sum_of_squares arr (n + 1) =
      int64_wrap (sum_of_squares arr n + squared_term (arr n)) := by
  unfold sum_of_squares
  rw [List.range_succ, List.foldl_append]
  rfl

/-- Under the specification's fitting preconditions the wrapped
accumulation coincides with the exact sum at every length. -/
lemma sum_of_squares_eq_spec (arr : Nat → Int) (n : Nat)
    (helts : ∀ i, i < n → -2 ^ 31 ≤ arr i ∧ arr i < 2 ^ 31)
    (hfit : sum_of_squares_spec arr n < 2 ^ 63) :
    sum_of_squares arr n = sum_of_squares_spec arr n := by
  induction n with
  | zero => simp [sum_of_squares, sum_of_squares_spec]
  | succ m ih =>
    have hterm : squared_term (arr m) = arr m * arr m := by
      have := helts m (Nat.lt_succ_self m)
      exact squared_term_exact (arr m) this.1 this.2
    have hmono : sum_of_squares_spec arr m ≤ sum_of_squares_spec arr (m + 1) := by
      rw [sum_of_squares_spec_succ]
      have := sq_nonneg (arr m)
      omega
    have ihm : sum_of_squares arr m = sum_of_squares_spec arr m := by
      apply ih
      · intro i hi
        exact helts i (Nat.lt_succ_of_lt hi)
      · omega
    rw [sum_of_squares_succ, ihm, hterm]
    have hnn := sum_of_squares_spec_nonneg arr (m + 1)
    have hspec := sum_of_squares_spec_succ arr m
    rw [show arr m ^ 2 = arr m * arr m from sq (arr m) ▸ rfl] at hspec
    rw [← hspec]
    apply int64_wrap_id
    · omega
    · exact hfit

lemma fibLoop_succ (k : Nat) (p c : Int) :
    fibLoop (k + 1) p c = fibLoop k c (int64_wrap (p + c)) := rfl

/-- Running the loop body `k` times starting from two adjacent
Fibonacci numbers yields the pair `k` positions further on, as long as
the largest value reached fits the 64-bit accumulator. -/
lemma fibLoop_fib (k m : Nat) (h : (Nat.fib (m + k + 1) : Int) < 2 ^ 63) :
    fibLoop k (Nat.fib m) (Nat.fib (m + 1)) =
      ((Nat.fib (m + k) : Int), (Nat.fib (m + k + 1) : Int)) := by
  induction k generalizing m with
  | zero => simp [fibLoop]
  | succ j ih =>
    have hmono : (Nat.fib (m + 2) : Int) ≤ (Nat.fib (m + j + 2) : Int) := by
      exact_mod_cast Nat.fib_mono (by omega)
    have hidx : m + (j + 1) + 1 = m + j + 2 := by omega
    rw [hidx] at h
    have hstep : int64_wrap ((Nat.fib m : Int) + (Nat.fib (m + 1) : Int)) =
        (Nat.fib (m + 2) : Int) := by
      have hcast : (Nat.fib m : Int) + (Nat.fib (m + 1) : Int) = (Nat.fib (m + 2) : Int) := by
        rw [Nat.fib_add_two]
        push_cast
        ring
      rw [hcast]
      have hnn : (0 : Int) ≤ (Nat.fib (m + 2) : Int) := Int.natCast_nonneg _
      exact int64_wrap_id _ (by omega) (by omega)
    rw [fibLoop_succ, hstep]
    have hih := ih (m + 1) (by rw [show m + 1 + j + 1 = m + j + 2 from by omega]; exact h)
    rw [show (Nat.fib (m + 2) : Int) = (Nat.fib (m + 1 + 1) : Int) from by norm_num] at hih
    rw [hih]
    have e1 : m + 1 + j = m + (j + 1) := by omega
    rw [e1]

/-- `fibonacci_iterative` computes the mathematical Fibonacci number
whenever the result fits the 64-bit return type. -/
lemma fibonacci_iterative_fib (n : Nat) (h : (Nat.fib n : Int) < 2 ^ 63) :
    fibonacci_iterative (n : Int) = (Nat.fib n : Int) := by
  match n with
  | 0 => simp [fibonacci_iterative]
  | 1 => simp [fibonacci_iterative]
  | m + 2 =>
    have hgt : ¬ ((m + 2 : Nat) : Int) ≤ 1 := by push_cast; omega
    rw [fibonacci_iterative, if_neg hgt]
    have ht : (((m + 2 : Nat) : Int) - 1).toNat = m + 1 := by push_cast; omega
    rw [ht]
    have hfit : (Nat.fib (0 + (m + 1) + 1) : Int) < 2 ^ 63 := by
      rw [show 0 + (m + 1) + 1 = m + 2 from by omega]
      exact h
    have hloop := fibLoop_fib (m + 1) 0 hfit
    rw [show (Nat.fib 0 : Int) = 0 from by norm_num,
        show (Nat.fib (0 + 1) : Int) = 1 from by norm_num] at hloop
    rw [hloop]
    norm_num

lemma fib_machine_step_eq (t : Int × Int × Int) (h : Heap) :
    fib_machine_step (t, h) = (fib_triple_step t, h) := rfl

/-- The heap component is invariant under the loop machine: the loop
body performs no heap operation. -/
lemma fib_machine_step_iterate (k : Nat) (t : Int × Int × Int) (h : Heap) :
    fib_machine_step^[k] (t, h) = (fib_triple_step^[k] t, h) := by
  induction k generalizing t with
  | zero => rfl
  | succ j ih =>
    rw [Function.iterate_succ_apply, Function.iterate_succ_apply,
        fib_machine_step_eq]
    exact ih (fib_triple_step t)

/-- Iterating the loop-body step `k` times advances the counter by `k`
and computes exactly `fibLoop k` on the rolling pair. -/
lemma fib_triple_step_iterate (k : Nat) (i prev cur : Int) :
    fib_triple_step^[k] (i, prev, cur) = (i + (k : Int), fibLoop k prev cur) := by
  induction k generalizing i prev cur with
  | zero => simp [fibLoop]
  | succ j ih =>
    rw [Function.iterate_succ_apply]
    have hstep : fib_triple_step (i, prev, cur) = (i + 1, cur, int64_wrap (prev + cur)) := rfl
    rw [hstep, ih, fibLoop_succ]
    have : i + 1 + (j : Int) = i + ((j : Int) + 1) := by ring
    rw [this]
    push_cast
    rfl

/-- Iterating the `sum_of_squares` loop body `k` times from the start
state visits indices `0 .. k-1` in order and computes the function's
accumulator. -/
lemma sos_step_iterate (arr : Nat → Int) (k : Nat) :
    (sos_step arr)^[k] (0, 0) = (k, sum_of_squares arr k) := by
  induction k with
  | zero => rfl
  | succ j ih =>
    rw [Function.iterate_succ_apply', ih, sum_of_squares_succ]
    rfl

/-- Looking up an address strictly above every allocated key fails. -/
lemma lookup_eq_none_of_keys_lt (l : List (Nat × List Nat)) (a : Nat)
    (h : ∀ p ∈ l, p.1 < a) : l.lookup a = none := by
  induction l with
  | nil => rfl
  | cons q t ih =>
    obtain ⟨k, b⟩ := q
    have hk := h (k, b) (List.mem_cons_self _ _)
    have hbeq : (a == k) = false := by
      simp only [beq_eq_false_iff_ne]
      omega
    simp only [List.lookup, hbeq]
    exact ih fun p hp => h p (List.mem_cons_of_mem _ hp)

/- ### Claim theorems -/

/-- C1: for every non-negative index `n` whose Fibonacci number fits a
64-bit signed integer, `fibonacci_iterative n` returns the nth
Fibonacci number (F(0)=0, F(1)=1): it returns `n` directly when
`n ≤ 1`, and for `n ≥ 2` it satisfies
`fibonacci(n) = fibonacci(n-1) + fibonacci(n-2)`, computed by iterating
`n-1` times over the rolling pair. -/
theorem fibonacci_iterative_correct (n : Nat) (h : (Nat.fib n : Int) < 2 ^ 63) :
    fibonacci_iterative (n : Int) = (Nat.fib n : Int) ∧
    (n ≤ 1 → fibonacci_iterative (n : Int) = (n : Int)) ∧
    (2 ≤ n →
      fibonacci_iterative (n : Int) =
        fibonacci_iterative ((n : Int) - 1) + fibonacci_iterative ((n : Int) - 2)) := by
  refine ⟨fibonacci_iterative_fib n h, ?_, ?_⟩
  · intro hn
    rw [fibonacci_iterative_fib n h]
    interval_cases n <;> simp
  · intro hn
    obtain ⟨m, rfl⟩ : ∃ m, n = m + 2 := ⟨n - 2, by omega⟩
    have e1 : ((m + 2 : Nat) : Int) - 1 = ((m + 1 : Nat) : Int) := by push_cast; ring
    have e2 : ((m + 2 : Nat) : Int) - 2 = ((m : Nat) : Int) := by push_cast; ring
    have hf1 : (Nat.fib (m + 1) : Int) < 2 ^ 63 := by
      have : (Nat.fib (m + 1) : Int) ≤ (Nat.fib (m + 2) : Int) := by
        exact_mod_cast Nat.fib_mono (by omega)
      omega
    have hf0 : (Nat.fib m : Int) < 2 ^ 63 := by
      have : (Nat.fib m : Int) ≤ (Nat.fib (m + 2) : Int) := by
        exact_mod_cast Nat.fib_mono (by omega)
      omega
    rw [e1, e2, fibonacci_iterative_fib (m + 2) h, fibonacci_iterative_fib (m + 1) hf1,
        fibonacci_iterative_fib m hf0]
    rw [Nat.fib_add_two]
    push_cast
    ring

theorem fibonacci_iterative_correct_witness :
    ((Nat.fib 10 : Int) < 2 ^ 63) ∧
    (fibonacci_iterative ((10 : Nat) : Int) = (Nat.fib 10 : Int) ∧
      ((10 : Nat) ≤ 1 → fibonacci_iterative ((10 : Nat) : Int) = ((10 : Nat) : Int)) ∧
      (2 ≤ (10 : Nat) →
        fibonacci_iterative (((10 : Nat) : Int)) =
          fibonacci_iterative (((10 : Nat) : Int) - 1) +
            fibonacci_iterative (((10 : Nat) : Int) - 2))) :=
  ⟨by decide, fibonacci_iterative_correct 10 (by decide)⟩

/-- C2: for every length `n` and sequence of signed 32-bit values whose
squares and running sum fit the 64-bit accumulator, `sum_of_squares`
equals the mathematically exact sum of the squares of the elements,
accumulated in index order. -/
theorem sum_of_squares_correct (arr : Nat → Int) (n : Nat)
    (helts : ∀ i, i < n → -2 ^ 31 ≤ arr i ∧ arr i < 2 ^ 31)
    (hfit : sum_of_squares_spec arr n < 2 ^ 63) :
    sum_of_squares arr n = sum_of_squares_spec arr n :=
  sum_of_squares_eq_spec arr n helts hfit

/-- A concrete three-element sequence, `[1, 2, 3]` padded with zeros. -/
def test_arr : Nat → Int :=
  fun i => if i = 0 then 1 else if i = 1 then 2 else if i = 2 then 3 else 0

theorem sum_of_squares_correct_witness :
    (∀ i, i < 3 → -2 ^ 31 ≤ test_arr i ∧ test_arr i < 2 ^ 31) ∧
    sum_of_squares_spec test_arr 3 < 2 ^ 63 ∧
    sum_of_squares test_arr 3 = sum_of_squares_spec test_arr 3 ∧
    sum_of_squares test_arr 3 = 14 := by
  have h1 : ∀ i, i < 3 → -2 ^ 31 ≤ test_arr i ∧ test_arr i < 2 ^ 31 := by decide
  have h2 : sum_of_squares_spec test_arr 3 < 2 ^ 63 := by
    norm_num [sum_of_squares_spec, Finset.sum_range_succ, test_arr]
  exact ⟨h1, h2, sum_of_squares_correct test_arr 3 h1 h2, by decide⟩

/-- C6: `sum_of_squares` of any sequence at length 0 is 0. -/
theorem sum_of_squares_zero (arr : Nat → Int) : sum_of_squares arr 0 = 0 := rfl

/-- C8: for every negative index `n`, `fibonacci_iterative n` returns
`n` itself: the `n ≤ 1` branch applies, so the function is fully
defined on negative inputs. -/
theorem fibonacci_iterative_negative (n : Int) (h : n < 0) :
    fibonacci_iterative n = n := by
  rw [fibonacci_iterative, if_pos (by omega)]

theorem fibonacci_iterative_negative_witness :
    (-5 : Int) < 0 ∧ fibonacci_iterative (-5) = -5 :=
  ⟨by decide, fibonacci_iterative_negative (-5) (by decide)⟩

/-- C9: the squared term of `sum_of_squares` is computed exactly for
every element in the signed 32-bit range, INT_MIN included: the widened
64-bit multiplication never wraps. -/
theorem squared_term_no_overflow (x : Int) (h0 : -2 ^ 31 ≤ x) (h1 : x < 2 ^ 31) :
    squared_term x = x * x :=
  squared_term_exact x h0 h1

theorem squared_term_no_overflow_witness :
    (-2 ^ 31 ≤ (-2 ^ 31 : Int)) ∧ ((-2 ^ 31 : Int) < 2 ^ 31) ∧
    squared_term (-2 ^ 31) = (-2 ^ 31 : Int) * (-2 ^ 31 : Int) :=
  ⟨by decide, by decide, squared_term_no_overflow (-2 ^ 31) (by decide) (by decide)⟩

/-- C3: on a well-formed heap, when allocation succeeds,
`create_string s` returns a freshly allocated buffer of exactly
`length s + 1` bytes whose contents are the bytes of `s` followed by
the null terminator. -/
theorem create_string_correct (h : Heap) (s : List Nat) (hwf : h.wf) :
    ∃ addr,
      (create_string h s true).1 = some addr ∧
      ((create_string h s true).2).read addr = some (s ++ [0]) ∧
      (s ++ [0]).length = s.length + 1 ∧
      h.read addr = none := by
  refine ⟨h.next, rfl, ?_, by simp, ?_⟩
  · show (strcpy ⟨h.next + 1, (h.next, List.replicate (s.length + 1) 0) :: h.blocks⟩
        h.next s).read h.next = some (s ++ [0])
    have hblocks : (strcpy ⟨h.next + 1, (h.next, List.replicate (s.length + 1) 0) :: h.blocks⟩
        h.next s).blocks =
        (h.next, s ++ [0]) ::
          (h.blocks.map fun p => if p.1 = h.next then (h.next, s ++ [0]) else p) := by
      simp [strcpy, Heap.store]
    rw [Heap.read, hblocks]
    simp [List.lookup]
  · exact lookup_eq_none_of_keys_lt h.blocks h.next hwf

theorem create_string_correct_witness :
    Heap.wf ⟨0, []⟩ ∧
    ∃ addr,
      (create_string ⟨0, []⟩ [104, 105] true).1 = some addr ∧
      ((create_string ⟨0, []⟩ [104, 105] true).2).read addr = some ([104, 105] ++ [0]) ∧
      (([104, 105] : List Nat) ++ [0]).length = ([104, 105] : List Nat).length + 1 ∧
      Heap.read ⟨0, []⟩ addr = none := by
  have hwf : Heap.wf (⟨0, []⟩ : Heap) := fun p hp => absurd hp (List.not_mem_nil p)
  exact ⟨hwf, create_string_correct ⟨0, []⟩ [104, 105] hwf⟩

/-- C4: when allocation fails, `create_string` returns a null result
and leaves the heap untouched (no bytes are copied); and failure is
signalled only by that null return, since a successful allocation
always yields a non-null result. -/
theorem create_string_alloc_failure (h : Heap) (s : List Nat) :
    create_string h s false = (none, h) ∧
    (create_string h s true).1 = some h.next :=
  ⟨rfl, rfl⟩

/-- C5: `free_string` on a null pointer is a no-op: the heap is
unchanged and no error is signalled. -/
theorem free_string_null_noop (h : Heap) : free_string h none = h := rfl

/-- C7: `fibonacci_iterative` is deterministic and has no side
effects: executed against any heap it leaves the heap exactly as it
was, two invocations against arbitrary heaps return the same value,
and that value is the one computed by the pure function. -/
theorem fibonacci_iterative_no_side_effects (n : Int) (h h2 : Heap) :
    (fib_exec h n).1 = h ∧
    (fib_exec h n).2 = (fib_exec h2 n).2 ∧
    (fib_exec h n).2 = fibonacci_iterative n := by
  have key : ∀ hh : Heap, fib_exec hh n = (hh, fibonacci_iterative n) := by
    intro hh
    unfold fib_exec fibonacci_iterative
    by_cases hle : n ≤ 1
    · simp [hle]
    · simp only [if_neg hle, fib_machine_step_iterate, fib_triple_step_iterate]
  rw [key h, key h2]
  exact ⟨rfl, rfl, rfl⟩

/-- C10: both loops terminate on every input.  The
`fibonacci_iterative` loop guard `i ≤ n` fails for the first time
after exactly `max 0 (n - 1)` iterations, for every integer `n`
including negative ones; the `sum_of_squares` loop guard `i < n` fails
for the first time after exactly `n` iterations, and the loop's final
accumulator is the function's result, so both embeddings are total. -/
theorem loops_terminate (n : Int) (m : Nat) (arr : Nat → Int) :
    (¬ (fib_triple_step^[(n - 1).toNat] (2, 0, 1)).1 ≤ n) ∧
    (∀ j, j < (n - 1).toNat → (fib_triple_step^[j] (2, 0, 1)).1 ≤ n) ∧
    (((n - 1).toNat : Int) = max 0 (n - 1)) ∧
    (¬ ((sos_step arr)^[m] (0, 0)).1 < m) ∧
    (∀ j, j < m → ((sos_step arr)^[j] (0, 0)).1 < m) ∧
    ((sos_step arr)^[m] (0, 0)).2 = sum_of_squares arr m := by
  refine ⟨?_, ?_, ?_, ?_, ?_, ?_⟩
  · rw [fib_triple_step_iterate]
    simp only
    omega
  · intro j hj
    rw [fib_triple_step_iterate]
    simp only
    omega
  · omega
  · rw [sos_step_iterate]
    simp only
    omega
  · intro j hj
    rw [sos_step_iterate]
    simp only
    omega
  · rw [sos_step_iterate]
